import Mathlib

/-!
# Verification of the spiral editor core against its specification

Shallow embedding of the spiral editor's core data model and operations
(`src/buffer.rs`, `src/view.rs`, `src/selection.rs`, `src/keybind.rs`,
`src/command.rs`, `src/engine.rs`), with theorems settling the spec's claims.

The rope (`ropey::Rope`) is embedded as a `List Char`; character offsets are
`Nat`. Operations that can panic in the Rust source are embedded as
`Option`-valued functions returning `none` where the source panics.
-/

namespace Spiral

/-- `Direction` from `src/selection.rs`. -/
inductive Direction
  | forward
  | back
deriving DecidableEq, Repr

/-- `Selection` from `src/selection.rs`. The Rust field `end` is a Lean
keyword, so it is embedded as `stop`; the `view` id field is omitted because
the embedded view carries its selections directly. -/
structure Selection where
  start : Nat
  stop : Nat
  dir : Direction
deriving DecidableEq, Repr

/-- Insert `text` at character index `i` of a rope, as `ropey`'s
`Rope::insert` does for an in-bounds index (the source always clamps the
index before calling it). -/
def ropeInsert (contents : List Char) (i : Nat) (text : List Char) : List Char :=
  contents.take i ++ text ++ contents.drop i

/-- Remove the character range `[i, i + len)` from a rope, as `ropey`'s
`Rope::remove` does for an in-bounds range (the source always clamps first). -/
def ropeRemove (contents : List Char) (i len : Nat) : List Char :=
  contents.take i ++ contents.drop (i + len)

/-- The per-selection migration of `Buffer::insert` (`src/buffer.rs` lines
146-153): each endpoint `≥ charIndex` moves right by `charLen`. -/
def insertMig (charIndex charLen : Nat) (s : Selection) : Selection :=
  { s with
    start := if s.start ≥ charIndex then s.start + charLen else s.start
    stop := if s.stop ≥ charIndex then s.stop + charLen else s.stop }

/-- The per-selection migration of `Buffer::remove` (`src/buffer.rs` lines
182-189): each endpoint `≥ charIndex` moves left by `len`, saturating at
zero and clamping at `charIndex` (`(e.saturating_sub(len)).max(char_index)`). -/
def removeMig (charIndex len : Nat) (s : Selection) : Selection :=
  { s with
    start := if s.start ≥ charIndex then max (s.start - len) charIndex else s.start
    stop := if s.stop ≥ charIndex then max (s.stop - len) charIndex else s.stop }

/-- `Buffer::insert` from `src/buffer.rs` (lines 117-154), restricted to the
rope contents and the selection migration; the tree-sitter `InputEdit` only
updates the syntax tree, which is not part of the embedded state.
Clamps `char_index` to `len_chars`, inserts the text, and shifts every
selection endpoint that is `≥ char_index` right by the inserted char count. -/
def bufferInsert (contents : List Char) (sels : List Selection)
    (text : List Char) (charIndex : Nat) : List Char × List Selection :=
  let charIndex := min charIndex contents.length
  let contents2 := ropeInsert contents charIndex text
  let charLen := text.length
  (contents2, sels.map (insertMig charIndex charLen))

/-- `Buffer::remove` from `src/buffer.rs` (lines 156-190), restricted to the
rope contents and the selection migration. Clamps `char_index` to
`len_chars` and `len` to the available chars, removes the range, and moves
every selection endpoint that is `≥ char_index` left by `len`, saturating at
zero and clamping at `char_index`. -/
def bufferRemove (contents : List Char) (sels : List Selection)
    (charIndex len : Nat) : List Char × List Selection :=
  let charIndex := min charIndex contents.length
  let len := min len (contents.length - charIndex)
  let contents2 := ropeRemove contents charIndex len
  (contents2, sels.map (removeMig charIndex len))

/-- A primitive buffer operation, the argument data of a call to
`Buffer::insert` or `Buffer::remove`. -/
inductive BufOp
  | insertOp (text : List Char) (charIndex : Nat)
  | removeOp (charIndex len : Nat)
deriving DecidableEq, Repr

/-- Apply one primitive buffer operation to a rope together with the
selections of a view. -/
def applyBufOp (st : List Char × List Selection) (op : BufOp) :
    List Char × List Selection :=
  match op with
  | .insertOp text charIndex => bufferInsert st.1 st.2 text charIndex
  | .removeOp charIndex len => bufferRemove st.1 st.2 charIndex len

/-- Apply a sequence of primitive buffer operations in order. -/
def applyBufOps (st : List Char × List Selection) (ops : List BufOp) :
    List Char × List Selection :=
  ops.foldl applyBufOp st

/-- Validity of a selection with respect to a rope of `len` chars:
`start ≤ end ≤ len_chars` (spec section 8, selection validity). -/
def SelValid (len : Nat) (s : Selection) : Prop :=
  s.start ≤ s.stop ∧ s.stop ≤ len

instance (len : Nat) (s : Selection) : Decidable (SelValid len s) := by
  unfold SelValid; infer_instance

theorem ropeInsert_length (contents : List Char) (i : Nat) (text : List Char)
    (h : i ≤ contents.length) :
    (ropeInsert contents i text).length = contents.length + text.length := by
  simp [ropeInsert]
  omega

theorem ropeRemove_length (contents : List Char) (i len : Nat)
    (h : i + len ≤ contents.length) :
    (ropeRemove contents i len).length = contents.length - len := by
  simp [ropeRemove]
  omega

/-- `Buffer::insert` preserves selection validity. -/
theorem bufferInsert_valid (contents : List Char) (sels : List Selection)
    (text : List Char) (charIndex : Nat)
    (h : ∀ s ∈ sels, SelValid contents.length s) :
    ∀ s ∈ (bufferInsert contents sels text charIndex).2,
      SelValid (bufferInsert contents sels text charIndex).1.length s := by
  intro s hs
  simp only [bufferInsert, List.mem_map] at hs
  obtain ⟨t, ht, rfl⟩ := hs
  have hv := h t ht
  obtain ⟨h1, h2⟩ := hv
  have hlen : (bufferInsert contents sels text charIndex).1.length
      = contents.length + text.length := by
    simp only [bufferInsert]
    exact ropeInsert_length contents _ text (Nat.min_le_right _ _)
  rw [hlen]
  constructor <;> simp only [insertMig, removeMig] <;> split_ifs <;> omega

/-- `Buffer::remove` preserves selection validity. -/
theorem bufferRemove_valid (contents : List Char) (sels : List Selection)
    (charIndex len : Nat)
    (h : ∀ s ∈ sels, SelValid contents.length s) :
    ∀ s ∈ (bufferRemove contents sels charIndex len).2,
      SelValid (bufferRemove contents sels charIndex len).1.length s := by
  intro s hs
  simp only [bufferRemove, List.mem_map] at hs
  obtain ⟨t, ht, rfl⟩ := hs
  have hv := h t ht
  obtain ⟨h1, h2⟩ := hv
  have hlen : (bufferRemove contents sels charIndex len).1.length
      = contents.length - min len (contents.length - min charIndex contents.length) := by
    simp only [bufferRemove]
    apply ropeRemove_length
    omega
  rw [hlen]
  constructor <;> simp only [insertMig, removeMig] <;> split_ifs <;> omega

/-- Every single primitive operation preserves selection validity. -/
theorem applyBufOp_valid (st : List Char × List Selection) (op : BufOp)
    (h : ∀ s ∈ st.2, SelValid st.1.length s) :
    ∀ s ∈ (applyBufOp st op).2, SelValid (applyBufOp st op).1.length s := by
  cases op with
  | insertOp text charIndex => exact bufferInsert_valid st.1 st.2 text charIndex h
  | removeOp charIndex len => exact bufferRemove_valid st.1 st.2 charIndex len h

/-- C1. Selection validity invariant: for every view and every sequence of
calls to the buffer primitives `insert(view, text, char_index)` and
`remove(view, char_index, len)`, starting from selections that are valid,
every selection `s` on that view afterwards satisfies
`s.start ≤ s.end ≤ buffer.len_chars`. -/
theorem selection_validity_invariant (ops : List BufOp) (contents : List Char)
    (sels : List Selection)
    (h : ∀ s ∈ sels, SelValid contents.length s) :
    ∀ s ∈ (applyBufOps (contents, sels) ops).2,
      SelValid (applyBufOps (contents, sels) ops).1.length s := by
  induction ops generalizing contents sels with
  | nil => exact h
  | cons op rest ih =>
    simp only [applyBufOps, List.foldl_cons]
    have h1 := applyBufOp_valid (contents, sels) op h
    have := ih (applyBufOp (contents, sels) op).1 (applyBufOp (contents, sels) op).2 h1
    simpa [applyBufOps] using this

/-- Witness for C1 at a concrete input: buffer `"abc"`, one selection `[1,2]`,
inserting `"xy"` at 2 then removing 3 chars at 0. -/
theorem selection_validity_invariant_witness :
    (∀ s ∈ [Selection.mk 1 2 .forward],
      SelValid ([Char.ofNat 97, Char.ofNat 98, Char.ofNat 99]).length s) ∧
    ∀ s ∈ (applyBufOps ([Char.ofNat 97, Char.ofNat 98, Char.ofNat 99],
        [Selection.mk 1 2 .forward])
        [.insertOp [Char.ofNat 120, Char.ofNat 121] 2, .removeOp 0 3]).2,
      SelValid (applyBufOps ([Char.ofNat 97, Char.ofNat 98, Char.ofNat 99],
        [Selection.mk 1 2 .forward])
        [.insertOp [Char.ofNat 120, Char.ofNat 121] 2, .removeOp 0 3]).1.length s :=
  ⟨by decide, selection_validity_invariant _ _ _ (by decide)⟩

/-- C6. Selection migration of the primitives: `insert(view, text,
char_index)` shifts each selection endpoint (start and end independently)
that is `≥ char_index` (after clamping `char_index` to `len_chars`) right by
the number of inserted chars, leaving endpoints `< char_index` unchanged;
`remove(view, char_index, len)` shifts each endpoint `≥ char_index` left by
`len` (`len` clamped to available chars), clamping so no endpoint falls
below `char_index`, leaving endpoints `< char_index` unchanged. -/
theorem selection_migration_primitives (contents : List Char)
    (sels : List Selection) (text : List Char) (charIndex rlen i : Nat) :
    ((bufferInsert contents sels text charIndex).2[i]? =
      sels[i]?.map fun s =>
        let ci := min charIndex contents.length
        { s with
          start := if s.start ≥ ci then s.start + text.length else s.start
          stop := if s.stop ≥ ci then s.stop + text.length else s.stop }) ∧
    ((bufferRemove contents sels charIndex rlen).2[i]? =
      sels[i]?.map fun s =>
        let ci := min charIndex contents.length
        let l := min rlen (contents.length - ci)
        { s with
          start := if s.start ≥ ci then max (s.start - l) ci else s.start
          stop := if s.stop ≥ ci then max (s.stop - l) ci else s.stop }) := by
  constructor <;>
    rcases hi : sels[i]? with _ | s <;>
    simp [bufferInsert, bufferRemove, insertMig, removeMig, hi]

/-! ## Sorting and merging of selections

Rust's `sort_by_key` is a stable sort; it is embedded as a stable insertion
sort parameterized by the key function. -/

/-- Stable insertion of `p` into a list sorted by `key`: `p` goes in front of
the first element whose key is not smaller, so elements with equal keys keep
their original relative order (as Rust's stable `sort_by_key` does). -/
def insertSortedBy {α : Type} (key : α → Nat) (p : α) : List α → List α
  | [] => [p]
  | q :: rest =>
    if key q < key p then q :: insertSortedBy key p rest else p :: q :: rest

/-- Stable sort by `key`, embedding Rust's `sort_by_key`. -/
def stableSortBy {α : Type} (key : α → Nat) (l : List α) : List α :=
  l.foldr (insertSortedBy key) []

/-- Merge pass over selections already sorted by start: a selection whose
range intersects the current representative's range is absorbed into it
(the representative's range becomes the union). -/
def mergeGo (cur : Selection) : List Selection → List Selection
  | [] => [cur]
  | s :: rest =>
    if s.start ≤ cur.stop then
      mergeGo { cur with stop := max cur.stop s.stop } rest
    else cur :: mergeGo s rest

/-- Modelled from the spec: `View::merge_overlapping_selections` is called by
the source (`src/buffer.rs` lines 216 and 238, `src/command.rs` line 181 and
others) but its definition is not among the provided sources. Spec section
4.4: it "coalesces selections whose ranges intersect or touch, preserving
one representative per merged cluster". Modelled as: sort by start, then
absorb each selection whose inclusive range intersects the running
representative (`s.start ≤ cur.end`), the representative spanning the union. -/
def mergeOverlappingSelections (sels : List Selection) : List Selection :=
  match stableSortBy Selection.start sels with
  | [] => []
  | s :: rest => mergeGo s rest

/-! ## History (`src/buffer.rs` lines 316-369) -/

/-- `Action` from `src/buffer.rs`. -/
inductive Action
  | textInsertion (text : List Char) (start : Nat)
  | textDeletion (deletedText : List Char) (start : Nat) (len : Nat)
deriving DecidableEq, Repr

/-- `HistoryAction` from `src/buffer.rs`: one undo/redo group. -/
structure HistoryAction where
  actions : List Action
deriving DecidableEq, Repr

/-- `History` from `src/buffer.rs`: the recorded groups plus a cursor. -/
structure History where
  actions : List HistoryAction
  cursor : Nat
deriving DecidableEq, Repr

/-- `History::register_edit`: truncate to the cursor, push, advance. -/
def History.registerEdit (h : History) (edits : HistoryAction) : History :=
  { actions := h.actions.take h.cursor ++ [edits], cursor := h.cursor + 1 }

/-- `History::back`: at cursor `> 0`, step the cursor back and return the
group there (the source indexes `actions[cursor - 1]`, which is always in
bounds when `cursor ≤ actions.length`; the embedding uses the `Option`
lookup). -/
def History.back (h : History) : Option HistoryAction × History :=
  if h.cursor > 0 then
    (h.actions[h.cursor - 1]?, { h with cursor := h.cursor - 1 })
  else (none, h)

/-- `History::forward`: below the end, return the group at the cursor and
advance. -/
def History.forward (h : History) : Option HistoryAction × History :=
  if h.cursor < h.actions.length then
    (h.actions[h.cursor]?, { h with cursor := h.cursor + 1 })
  else (none, h)

/-- The rope, the selections of the view passed to `Buffer::undo` /
`Buffer::redo`, and the history of the buffer. -/
structure BufState where
  contents : List Char
  sels : List Selection
  history : History
deriving DecidableEq, Repr

/-- One step of the loop body of `Buffer::undo`: a recorded `TextInsertion`
is undone by `remove(view, start, text.chars().count())`, a recorded
`TextDeletion` by `insert(view, deleted_text, start)`. -/
def applyUndoAction (st : List Char × List Selection) (a : Action) :
    List Char × List Selection :=
  match a with
  | .textInsertion text start => bufferRemove st.1 st.2 start text.length
  | .textDeletion deletedText start _ => bufferInsert st.1 st.2 deletedText start

/-- One step of the loop body of `Buffer::redo`: replay a `TextInsertion` by
`insert`, a `TextDeletion` by `remove(view, start, len)`. -/
def applyRedoAction (st : List Char × List Selection) (a : Action) :
    List Char × List Selection :=
  match a with
  | .textInsertion text start => bufferInsert st.1 st.2 text start
  | .textDeletion _ start len => bufferRemove st.1 st.2 start len

/-- `Buffer::undo` from `src/buffer.rs` (lines 198-220): take one group from
the history; apply the inverse of each action iterating the group's list in
forward order (`for action in &action.actions`); then `recalc_tree` (not part
of the embedded state), `merge_overlapping_selections`, and
`make_selection_visisble` (scroll only, not embedded). -/
def bufferUndo (b : BufState) : BufState :=
  match b.history.back with
  | (some group, h2) =>
    let st := group.actions.foldl applyUndoAction (b.contents, b.sels)
    { contents := st.1, sels := mergeOverlappingSelections st.2, history := h2 }
  | (none, h2) => { b with history := h2 }

/-- `Buffer::redo` from `src/buffer.rs` (lines 222-242): take one group
forward from the history and replay its actions in forward order, then merge
overlapping selections. -/
def bufferRedo (b : BufState) : BufState :=
  match b.history.forward with
  | (some group, h2) =>
    let st := group.actions.foldl applyRedoAction (b.contents, b.sels)
    { contents := st.1, sels := mergeOverlappingSelections st.2, history := h2 }
  | (none, h2) => { b with history := h2 }

/-- The undo order the spec prescribes, for comparison (spec section 3,
History: "undo applies actions within a group in reverse order"): the
group's actions inverted in reverse order of how they were recorded. -/
def specUndoGroupReverse (st : List Char × List Selection)
    (group : HistoryAction) : List Char × List Selection :=
  group.actions.reverse.foldl applyUndoAction st

/-- C2. Undo/redo round-trip fails in the code: recording the two
insertions `"a"` at 0 and `"b"` at 1 from the empty buffer as one
`HistoryAction` yields contents `"ab"`, but `undo` then `redo` yields
`"abb"`, not `"ab"`. (`Buffer::undo` iterates the group's actions in
forward order, so the second inverse `remove` is applied at a stale offset;
`redo` then replays both insertions on the corrupted rope.) -/
theorem undo_redo_roundtrip_fails :
    (applyBufOps ([], [Selection.mk 0 0 .forward])
        [.insertOp [Char.ofNat 97] 0, .insertOp [Char.ofNat 98] 1]).1
      = [Char.ofNat 97, Char.ofNat 98] ∧
    (bufferRedo (bufferUndo
      { contents := [Char.ofNat 97, Char.ofNat 98]
        sels := [Selection.mk 2 2 .forward]
        history :=
          { actions := [HistoryAction.mk
              [.textInsertion [Char.ofNat 97] 0, .textInsertion [Char.ofNat 98] 1]]
            cursor := 1 } })).contents
      = [Char.ofNat 97, Char.ofNat 98, Char.ofNat 98] := by
  decide

/-- C3. Undo applies a group's actions in forward order, not in reverse
order as the spec states: for the group recording the deletions of `"a"` at
0 and `"c"` at 1 (recorded while deleting from `"abcd"`, leaving `"bd"`),
`Buffer::undo` re-inserts in forward order and produces `"acbd"`, while
applying the inverted actions in reverse order restores `"abcd"`. -/
theorem undo_group_order_is_forward :
    (bufferUndo
      { contents := [Char.ofNat 98, Char.ofNat 100]
        sels := [Selection.mk 0 0 .forward]
        history :=
          { actions := [HistoryAction.mk
              [.textDeletion [Char.ofNat 97] 0 1, .textDeletion [Char.ofNat 99] 1 1]]
            cursor := 1 } }).contents
      = [Char.ofNat 97, Char.ofNat 99, Char.ofNat 98, Char.ofNat 100] ∧
    (specUndoGroupReverse ([Char.ofNat 98, Char.ofNat 100], [Selection.mk 0 0 .forward])
      (HistoryAction.mk
        [.textDeletion [Char.ofNat 97] 0 1, .textDeletion [Char.ofNat 99] 1 1])).1
      = [Char.ofNat 97, Char.ofNat 98, Char.ofNat 99, Char.ofNat 100] := by
  decide

/-! ## Engine state: view-count bookkeeping (`src/engine.rs`) -/

/-- The slice of `EngineState` that view-count bookkeeping concerns:
`buffers` keeps each buffer's id with its `view_count` field, `views` keeps
each view's id with its `buffer` field. Ids are the successive values of the
monotonic counters of `BufferId::generate` / `ViewId::generate`. -/
structure EngineStateVC where
  buffers : List (Nat × Nat)
  views : List (Nat × Nat)
  activeView : Nat
  nextBufferId : Nat
  nextViewId : Nat
deriving DecidableEq, Repr

/-- `EngineState::new` (`src/engine.rs` lines 285-312): one scratch buffer
(`Buffer::create_from_contents` sets `view_count: 0`) and one view on it,
set active. No view count is incremented. -/
def engineStateNew : EngineStateVC :=
  { buffers := [(1, 0)]
    views := [(1, 1)]
    activeView := 1
    nextBufferId := 2
    nextViewId := 2 }

/-- `EngineState::create_view` (`src/engine.rs` lines 314-323): builds a
view for the buffer and inserts it into the view table. The buffer table —
in particular the buffer's `view_count` — is not touched. -/
def createView (st : EngineStateVC) (bufferId : Nat) : EngineStateVC × Nat :=
  ({ st with
      views := st.views ++ [(st.nextViewId, bufferId)]
      nextViewId := st.nextViewId + 1 }, st.nextViewId)

/-- The claimed invariant: every buffer's `view_count` equals the number of
views whose `buffer` field is that buffer's id. -/
def ViewCountInvariant (st : EngineStateVC) : Prop :=
  ∀ p ∈ st.buffers, p.2 = (st.views.filter fun v => v.2 == p.1).length

instance (st : EngineStateVC) : Decidable (ViewCountInvariant st) := by
  unfold ViewCountInvariant; infer_instance

/-- C4. View-count bookkeeping fails: the invariant is already false at the
initial engine state (the scratch buffer has `view_count = 0` while one view
references it), and `create_view` adds a view without changing any buffer's
`view_count` (no increment of `view_count` exists anywhere in the sources),
so it cannot restore it. -/
theorem view_count_invariant_fails :
    ¬ ViewCountInvariant engineStateNew ∧
    (createView engineStateNew 1).1.buffers = engineStateNew.buffers ∧
    ¬ ViewCountInvariant (createView engineStateNew 1).1 := by
  decide

/-! ## Keybindings (`src/keybind.rs`) -/

/-- `Mode` from `src/mode.rs`. -/
inductive Mode
  | normal
  | insert
  | custom (name : String)
deriving DecidableEq, Repr

/-- The crossterm `KeyModifiers` bitset, as individual flags. -/
structure KeyModifiers where
  shift : Bool
  control : Bool
  alt : Bool
  superMod : Bool
  hyper : Bool
  meta : Bool
deriving DecidableEq, Repr

/-- No modifiers held. -/
def KeyModifiers.none : KeyModifiers :=
  ⟨false, false, false, false, false, false⟩

/-- The crossterm `KeyCode`, restricted to the variants the keybinding code
distinguishes; all remaining variants are collapsed into `other`, tagged so
that distinct codes stay distinct. -/
inductive KeyCode
  | char (c : Char)
  | esc
  | enter
  | tab
  | backspace
  | other (tag : Nat)
deriving DecidableEq, Repr

/-- `Key` from `src/keybind.rs`. -/
structure Key where
  code : KeyCode
  modifiers : KeyModifiers
deriving DecidableEq, Repr

/-- A keybinding trie node (`Binding` from `src/keybind.rs`): the `HashMap`
of a `Group` is embedded as an association list. -/
inductive Binding
  | group (m : List (Key × Binding))
  | commands (cmds : List String)

/-- `HashMap::get` on a group's key map. -/
def keyMapGet (m : List (Key × Binding)) (k : Key) : Option Binding :=
  match m.find? (fun p => p.1 == k) with
  | some p => some p.2
  | none => none

/-- One key lookup of `Keybindings::get` (`src/keybind.rs` lines 17-27):
exact lookup first; if absent and the key holds SHIFT with a `Char` code,
retry with SHIFT removed. -/
def keyLookupWithShiftFallback (m : List (Key × Binding)) (k : Key) :
    Option Binding :=
  match keyMapGet m k with
  | some b => some b
  | none =>
    match k.code with
    | .char _ =>
      if k.modifiers.shift then
        keyMapGet m { k with modifiers := { k.modifiers with shift := false } }
      else none
    | _ => none

/-- The loop of `Keybindings::get` (`src/keybind.rs` lines 16-43): `map` is
the current key map, `binding` the last node touched. A `Group` hit descends
into its map; any other hit records the node and keeps looking up in the
same map; a miss returns `None`. -/
def keybindingsGo (map : List (Key × Binding)) (binding : Option Binding) :
    List Key → Option Binding
  | [] => binding
  | k :: rest =>
    match keyLookupWithShiftFallback map k with
    | some (.group g) => keybindingsGo g (some (.group g)) rest
    | some b => keybindingsGo map (some b) rest
    | none => none

/-- `Keybindings` from `src/keybind.rs`: the per-mode map is embedded as an
association list. -/
structure Keybindings where
  binds : List (Mode × List (Key × Binding))

/-- `Keybindings::get` (`src/keybind.rs` lines 13-46). -/
def keybindingsGet (kb : Keybindings) (mode : Mode) (seq : List Key) :
    Option Binding :=
  match kb.binds.find? (fun p => p.1 == mode) with
  | some p => keybindingsGo p.2 none seq
  | none => none

/-- The unmodified `g` key. -/
def gKey : Key := ⟨.char (Char.ofNat 103), KeyModifiers.none⟩

/-- A Normal-mode binding table with the single binding
`g ↦ Commands(["goto-start"])`. -/
def gOnlyKeybindings : Keybindings :=
  ⟨[(.normal, [(gKey, .commands ["goto-start"])])]⟩

/-- C5. Keybinding lookup is not deterministic in the claimed sense:
with the single binding `g ↦ Commands(["goto-start"])`, `get(Normal, [g,
g])` returns that `Commands` node as a terminal hit even though the strict
prefix `[g]` already resolves to the same `Commands` leaf — after a
`Commands` hit the loop keeps resolving the remaining keys in the same map
instead of requiring the remaining sequence to be empty. -/
theorem keybinding_lookup_not_deterministic :
    keybindingsGet gOnlyKeybindings .normal [gKey, gKey]
      = some (.commands ["goto-start"]) ∧
    keybindingsGet gOnlyKeybindings .normal [gKey]
      = some (.commands ["goto-start"]) := by
  constructor <;> rfl

/-! ## Command line (`src/engine.rs` lines 397-461) -/

/-- Byte-index insertion into a Rust `String` (`String::insert`): the string
is carried as its list of chars, the index in bytes; the index must land on
a char boundary and be at most the byte length, otherwise the source panics
(embedded as `none`). -/
def stringInsertByte (cs : List Char) (byteIdx : Nat) (c : Char) :
    Option (List Char) :=
  if byteIdx = 0 then some (c :: cs)
  else
    match cs with
    | [] => none
    | x :: rest =>
      if x.utf8Size ≤ byteIdx then
        (stringInsertByte rest (byteIdx - x.utf8Size) c).map (x :: ·)
      else none

/-- The command-line input state (`CommandLine` from `src/engine.rs`):
contents and cursor column; the focus flag is not needed for the key
handling embedded here. -/
structure CommandLine where
  contents : List Char
  cursor : Nat
deriving DecidableEq, Repr

/-- The `KeyCode::Char(c)` arm of `CommandLine::key_event` (`src/engine.rs`
lines 447-450): `self.contents.insert(self.cursor, c)` — a byte-index
`String::insert` — then `self.cursor += 1` (one per character, not one per
byte). -/
def commandLineChar (cl : CommandLine) (c : Char) : Option CommandLine :=
  (stringInsertByte cl.contents cl.cursor c).map fun cs =>
    { contents := cs, cursor := cl.cursor + 1 }

/-- Deliver a sequence of `Char` key events to the focused command line. -/
def commandLineTypeChars (cl : CommandLine) : List Char → Option CommandLine
  | [] => some cl
  | c :: rest => (commandLineChar cl c).bind (commandLineTypeChars · rest)

/-- C10. `CommandLine::key_event` panics on multi-byte input: typing `é`
(U+00E9, two UTF-8 bytes) advances the cursor by one while the contents grow
by two bytes, so the next `Char` event calls `String::insert` with byte
index 1, inside `é`'s encoding — a char-boundary panic. ASCII-only input,
by contrast, leaves the typed characters in order with the cursor after the
last one. -/
theorem commandline_char_event_panics_on_multibyte :
    commandLineTypeChars ⟨[], 0⟩ [Char.ofNat 233, Char.ofNat 97] = none ∧
    commandLineTypeChars ⟨[], 0⟩ [Char.ofNat 97, Char.ofNat 98]
      = some ⟨[Char.ofNat 97, Char.ofNat 98], 2⟩ := by
  decide

/-! ## Command argument parser (`src/command.rs` lines 785-898) -/

/-- `CommandArg` from `src/command.rs`. -/
inductive CommandArg
  | string (s : String)
  | integer (i : Int)
  | bool (b : Bool)
deriving DecidableEq, Repr

/-- Rust `char::is_whitespace` (the inputs of interest use only the ASCII
whitespace this shares with `Char.isWhitespace`). -/
def isWs (c : Char) : Bool :=
  c.isWhitespace

/-- The numeric value of an ASCII digit. -/
def digitVal (c : Char) : Option Nat :=
  if c.isDigit then some (c.toNat - 48) else Option.none

/-- The value of a non-empty all-digit string, `none` otherwise. -/
def digitsVal (cs : List Char) : Option Nat :=
  cs.foldl
    (fun acc c =>
      match acc, digitVal c with
      | some n, some d => some (n * 10 + d)
      | _, _ => Option.none)
    (if cs = [] then Option.none else some 0)

/-- Rust `str::parse::<i32>`: an optional sign followed by one or more ASCII
digits, with the value required to fit in a 32-bit signed integer. -/
def parseI32 (cs : List Char) : Option Int :=
  let core : List Char → Bool → Option Int := fun ds neg =>
    (digitsVal ds).bind fun n =>
      if neg then
        if n ≤ 2147483648 then some (-(n : Int)) else Option.none
      else
        if n ≤ 2147483647 then some (n : Int) else Option.none
  match cs with
  | [] => Option.none
  | c :: rest =>
    if c = '+' then core rest false
    else if c = '-' then core rest true
    else core cs false

/-- Classification of an unquoted token as `CommandArgParser::arg` performs
it (`src/command.rs` lines 820-830 and 844-853): a successful `i32` parse
first, then `true`/`false`, otherwise a `String`. -/
def classifyWord (buf : List Char) : CommandArg :=
  match parseI32 buf with
  | some i => .integer i
  | Option.none =>
    if buf = [Char.ofNat 116, Char.ofNat 114, Char.ofNat 117, Char.ofNat 101] then
      .bool true
    else if buf = [Char.ofNat 102, Char.ofNat 97, Char.ofNat 108,
        Char.ofNat 115, Char.ofNat 101] then
      .bool false
    else .string (String.mk buf)

/-- The scanner state `State` of `CommandArgParser` (`src/command.rs` lines
789-794). -/
inductive ArgScanState
  | none
  | string (escaped : Bool)
  | word
deriving DecidableEq, Repr

/-- The backslash escapes recognized inside a quoted string
(`src/command.rs` lines 864-886): `\"` `\n` `\t` `\r` `\\`; anything else is
a parse error. -/
def escapeChar (c : Char) : Option Char :=
  if c = '"' then some '"'
  else if c = 'n' then some (Char.ofNat 10)
  else if c = 't' then some (Char.ofNat 9)
  else if c = 'r' then some (Char.ofNat 13)
  else if c = '\\' then some '\\'
  else Option.none

/-- The scanning loop of `CommandArgParser::arg` (`src/command.rs` lines
815-888), after the leading whitespace has been skipped: consumes chars one
at a time driving the state machine; returns the produced argument (`none`
inside the pair when the input was exhausted in the start state) together
with the unconsumed rest, or `none` overall for a parse error (`Unclosed
string` / `Invalid escape sequence`). -/
def argCore : List Char → ArgScanState → List Char →
    Option (Option CommandArg × List Char)
  | [], st, buf =>
    match st with
    | .none => some (Option.none, [])
    | .string _ => Option.none
    | .word => some (some (classifyWord buf), [])
  | c :: cs, st, buf =>
    match st with
    | .none =>
      if c = '"' then argCore cs (.string false) buf
      else argCore cs .word (buf ++ [c])
    | .word =>
      if isWs c then some (some (classifyWord buf), cs)
      else argCore cs .word (buf ++ [c])
    | .string false =>
      if c = '"' then some (some (.string (String.mk buf)), cs)
      else if c = '\\' then argCore cs (.string true) buf
      else argCore cs (.string false) (buf ++ [c])
    | .string true =>
      match escapeChar c with
      | some e => argCore cs (.string false) (buf ++ [e])
      | Option.none => Option.none

theorem length_dropWhile_le (p : Char → Bool) (l : List Char) :
    (l.dropWhile p).length ≤ l.length :=
  (List.dropWhile_sublist p (l := l)).length_le

theorem argCore_rest_length_le (cs : List Char) (st : ArgScanState)
    (buf : List Char) (oa : Option CommandArg) (rest : List Char)
    (h : argCore cs st buf = some (oa, rest)) : rest.length ≤ cs.length := by
  induction cs generalizing st buf oa with
  | nil =>
    cases st with
    | none => simp [argCore] at h; simp [h.2]
    | string e => simp [argCore] at h
    | word => simp [argCore] at h; simp [h.2]
  | cons c cs ih =>
    cases st with
    | none =>
      simp only [argCore] at h
      split at h <;> exact Nat.le_succ_of_le (ih _ _ _ h)
    | word =>
      simp only [argCore] at h
      split at h
      · obtain ⟨h1, h2⟩ := Prod.mk.inj (Option.some.inj h)
        simp [← h2]
      · exact Nat.le_succ_of_le (ih _ _ _ h)
    | string e =>
      cases e with
      | false =>
        simp only [argCore] at h
        split at h
        · obtain ⟨h1, h2⟩ := Prod.mk.inj (Option.some.inj h)
          simp [← h2]
        · split at h
          · exact Nat.le_succ_of_le (ih _ _ _ h)
          · exact Nat.le_succ_of_le (ih _ _ _ h)
      | true =>
        simp only [argCore] at h
        split at h
        · exact Nat.le_succ_of_le (ih _ _ _ h)
        · exact absurd h (by simp)

/-- `CommandArgParser::args` (`src/command.rs` lines 803-805): collect
arguments until `arg` produces nothing; each `arg` call first skips leading
whitespace (lines 808-810). `none` is a parse error. -/
def argsCore (cs : List Char) : Option (List CommandArg) :=
  match h : argCore (cs.dropWhile isWs) .none [] with
  | Option.none => Option.none
  | some (Option.none, _) => some []
  | some (some a, rest) =>
    have hlt : rest.length < cs.length := by
      rcases hdw : cs.dropWhile isWs with _ | ⟨c, t⟩
      · rw [hdw] at h
        simp [argCore] at h
      · rw [hdw] at h
        have h1 : rest.length ≤ t.length := by
          by_cases hc : c = '"'
          · simp only [argCore, if_pos hc] at h
            exact argCore_rest_length_le _ _ _ _ _ h
          · simp only [argCore, if_neg hc] at h
            exact argCore_rest_length_le _ _ _ _ _ h
        have h2 : (cs.dropWhile isWs).length ≤ cs.length :=
          length_dropWhile_le isWs cs
        rw [hdw] at h2
        simp at h2
        omega
    (argsCore rest).map (a :: ·)
termination_by cs.length

/-- Reading of spec section 4.7 for quoted tokens: after the opening quote,
the token runs until the closing unescaped quote; a backslash must be
followed by one of the recognized escape characters, anything else is a
parse error; hitting the end of input first is an unclosed string. -/
def specScanQuoted (acc : List Char) : List Char → Option (List Char × List Char)
  | [] => Option.none
  | c :: rest =>
    if c = '"' then some (acc, rest)
    else if c = '\\' then
      match rest with
      | [] => Option.none
      | e :: rest2 =>
        match escapeChar e with
        | some ec => specScanQuoted (acc ++ [ec]) rest2
        | Option.none => Option.none
    else specScanQuoted (acc ++ [c]) rest
termination_by l => l.length

/-- Reading of spec section 4.7 for unquoted tokens: `true`/`false` → Bool;
otherwise a successful integer parse → Integer; otherwise → String. -/
def specClassify (tok : List Char) : CommandArg :=
  if tok = [Char.ofNat 116, Char.ofNat 114, Char.ofNat 117, Char.ofNat 101] then
    .bool true
  else if tok = [Char.ofNat 102, Char.ofNat 97, Char.ofNat 108,
      Char.ofNat 115, Char.ofNat 101] then
    .bool false
  else
    match parseI32 tok with
    | some i => .integer i
    | Option.none => .string (String.mk tok)

theorem specScanQuoted_rest_le (n : Nat) :
    ∀ cs acc tok rest, cs.length ≤ n →
      specScanQuoted acc cs = some (tok, rest) → rest.length ≤ cs.length := by
  induction n with
  | zero =>
    intro cs acc tok rest hn h
    cases cs with
    | nil => simp [specScanQuoted] at h
    | cons c t => simp at hn
  | succ n ih =>
    intro cs acc tok rest hn h
    cases cs with
    | nil => simp [specScanQuoted] at h
    | cons c t =>
      rw [specScanQuoted.eq_def] at h
      simp only [] at h
      split at h
      · obtain ⟨h1, h2⟩ := Prod.mk.inj (Option.some.inj h)
        simp [← h2]
      · split at h
        · split at h
          · exact absurd h (by simp)
          · next e rest2 =>
            split at h
            · have := ih rest2 _ tok rest (by simp at hn; omega) h
              simp
              omega
            · exact absurd h (by simp)
        · have := ih t (acc ++ [c]) tok rest (by simp at hn; omega) h
          simp
          omega

theorem dropWhile_head_false (p : Char → Bool) (l : List Char) (c : Char)
    (rest : List Char) (h : l.dropWhile p = c :: rest) : p c = false := by
  induction l with
  | nil => simp at h
  | cons x xs ih =>
    rw [List.dropWhile_cons] at h
    split at h
    · exact ih h
    · next hx =>
      injection h with h1 h2
      subst h1
      simpa using hx

/-- Model of the argument parser as spec section 4.7 describes it: skip
whitespace; a token starting with a double quote is scanned by
`specScanQuoted` and becomes a `String`; any other token runs to the next
whitespace and is classified by `specClassify`; `none` is a parse error
(exactly an unclosed string or an unrecognized escape). -/
def specArgsParse (cs : List Char) : Option (List CommandArg) :=
  match hcs : cs.dropWhile isWs with
  | [] => some []
  | c :: rest =>
    if c = '"' then
      match hq : specScanQuoted [] rest with
      | some (tok, rest2) =>
        have hlt : rest2.length < cs.length := by
          have h1 := specScanQuoted_rest_le rest.length rest [] tok rest2
            (Nat.le_refl _) hq
          have h2 := length_dropWhile_le isWs cs
          rw [hcs] at h2
          simp at h2
          omega
        (specArgsParse rest2).map (CommandArg.string (String.mk tok) :: ·)
      | Option.none => Option.none
    else
      have hlt : ((c :: rest).dropWhile fun x => !(isWs x)).length < cs.length := by
        have hc : isWs c = false := dropWhile_head_false isWs cs c rest hcs
        have h2 := length_dropWhile_le isWs cs
        rw [hcs] at h2
        simp at h2
        rw [List.dropWhile_cons]
        simp only [hc]
        have h3 := length_dropWhile_le (fun x => !(isWs x)) rest
        simp only [Bool.not_false, if_true]
        omega
      (specArgsParse ((c :: rest).dropWhile fun x => !(isWs x))).map
        (specClassify ((c :: rest).takeWhile fun x => !(isWs x)) :: ·)
termination_by cs.length

theorem argCore_string_eq (n : Nat) :
    ∀ cs buf, cs.length ≤ n →
      argCore cs (.string false) buf =
        match specScanQuoted buf cs with
        | some (tok, rest) => some (some (.string (String.mk tok)), rest)
        | Option.none => Option.none := by
  induction n with
  | zero =>
    intro cs buf hn
    have hcs : cs = [] := List.length_eq_zero.mp (Nat.le_zero.mp hn)
    subst hcs
    simp [argCore, specScanQuoted]
  | succ n ih =>
    intro cs buf hn
    cases cs with
    | nil => simp [argCore, specScanQuoted]
    | cons c t =>
      rw [specScanQuoted.eq_def]
      by_cases hc : c = '"'
      · subst hc
        simp [argCore]
      · by_cases hb : c = '\\'
        · subst hb
          simp only [argCore, if_neg hc, if_pos rfl, if_neg (by decide : ¬('\\' = '"'))]
          cases t with
          | nil => simp [argCore]
          | cons e rest2 =>
            simp only [argCore]
            cases hesc : escapeChar e with
            | some ec =>
              simp only [hesc]
              exact ih rest2 (buf ++ [ec]) (by simp at hn ⊢; omega)
            | none => simp [hesc]
        · simp only [argCore, if_neg hc, if_neg hb]
          exact ih t (buf ++ [c]) (by simp at hn ⊢; omega)

/-- The rest of the input after a word token: the word's chars and the
single whitespace char that terminated it (if any) are consumed. -/
def wordRest (cs : List Char) : List Char :=
  match cs.dropWhile (fun x => !(isWs x)) with
  | [] => []
  | _ :: t => t

theorem argCore_word_eq (cs : List Char) :
    ∀ buf, argCore cs .word buf =
      some (some (classifyWord (buf ++ cs.takeWhile fun x => !(isWs x))),
        wordRest cs) := by
  induction cs with
  | nil => intro buf; simp [argCore, wordRest]
  | cons c t ih =>
    intro buf
    by_cases hw : isWs c
    · simp [argCore, hw, wordRest, List.takeWhile_cons, List.dropWhile_cons]
    · simp [argCore, hw, List.takeWhile_cons, List.dropWhile_cons, wordRest,
        ih (buf ++ [c])]

theorem classifyWord_eq_spec (buf : List Char) :
    classifyWord buf = specClassify buf := by
  by_cases h1 : buf = [Char.ofNat 116, Char.ofNat 114, Char.ofNat 117, Char.ofNat 101]
  · subst h1; decide
  · by_cases h2 : buf = [Char.ofNat 102, Char.ofNat 97, Char.ofNat 108,
        Char.ofNat 115, Char.ofNat 101]
    · subst h2; decide
    · cases hp : parseI32 buf <;> simp [classifyWord, specClassify, h1, h2, hp]

theorem argsCore_nil : argsCore [] = some [] := by
  rw [argsCore.eq_def]
  simp [argCore]

theorem specArgsParse_nil : specArgsParse [] = some [] := by
  rw [specArgsParse.eq_def]
  simp

theorem specArgsParse_cons_ws (w : Char) (t : List Char) (hw : isWs w = true) :
    specArgsParse (w :: t) = specArgsParse t := by
  have hdw : (w :: t).dropWhile isWs = t.dropWhile isWs := by
    rw [List.dropWhile_cons]
    simp [hw]
  rw [specArgsParse.eq_def (w :: t), specArgsParse.eq_def t]
  split <;> (try split) <;> (try split) <;> (try split) <;> simp_all
  · obtain ⟨h1, h2⟩ := hdw
    subst h1
    subst h2
    rw [if_pos rfl]
    split <;> simp_all
  · split <;> simp_all

theorem argCore_none_quote (rest0 : List Char) :
    argCore ('"' :: rest0) .none [] = argCore rest0 (.string false) [] := by
  simp [argCore]

theorem argCore_none_word (c : Char) (rest0 : List Char) (hc : ¬c = '"') :
    argCore (c :: rest0) .none [] = argCore rest0 .word [c] := by
  simp [argCore, hc]

theorem argsCore_eq_spec_aux (n : Nat) :
    ∀ cs, cs.length ≤ n → argsCore cs = specArgsParse cs := by
  induction n with
  | zero =>
    intro cs hn
    have hcs : cs = [] := List.length_eq_zero.mp (Nat.le_zero.mp hn)
    subst hcs
    rw [argsCore_nil, specArgsParse_nil]
  | succ n ih =>
    intro cs hn
    rw [argsCore.eq_def, specArgsParse.eq_def]
    split
    · next heq =>
      split
      · next hdw =>
        rw [hdw] at heq
        simp [argCore] at heq
      · next c rest0 hdw =>
        rw [hdw] at heq
        by_cases hc : c = '"'
        · subst hc
          rw [if_pos rfl]
          rw [argCore_none_quote,
            argCore_string_eq rest0.length rest0 [] (Nat.le_refl _)] at heq
          split
          · next tok rest2 hq =>
            rw [hq] at heq
            simp at heq
          · rfl
        · rw [if_neg hc]
          rw [argCore_none_word c rest0 hc, argCore_word_eq rest0 [c]] at heq
          simp at heq
    · next r heq =>
      split
      · next hdw => rfl
      · next c rest0 hdw =>
        rw [hdw] at heq
        by_cases hc : c = '"'
        · subst hc
          rw [argCore_none_quote,
            argCore_string_eq rest0.length rest0 [] (Nat.le_refl _)] at heq
          split at heq <;> simp at heq
        · rw [argCore_none_word c rest0 hc, argCore_word_eq rest0 [c]] at heq
          simp at heq
    · next a rest heq =>
      have hlen : (cs.dropWhile isWs).length ≤ cs.length :=
        length_dropWhile_le isWs cs
      split
      · next hdw =>
        rw [hdw] at heq
        simp [argCore] at heq
      · next c rest0 hdw =>
        rw [hdw] at heq
        rw [hdw] at hlen
        by_cases hc : c = '"'
        · subst hc
          rw [if_pos rfl]
          rw [argCore_none_quote,
            argCore_string_eq rest0.length rest0 [] (Nat.le_refl _)] at heq
          split
          · next tok rest2 hq =>
            rw [hq] at heq
            simp only [Option.some.injEq, Prod.mk.injEq] at heq
            obtain ⟨ha, hrest⟩ := heq
            subst ha
            subst hrest
            have hr2 : rest2.length ≤ rest0.length :=
              specScanQuoted_rest_le rest0.length rest0 [] tok rest2
                (Nat.le_refl _) hq
            rw [ih rest2 (by simp at hlen; omega)]
          · next hq =>
            rw [hq] at heq
            simp at heq
        · rw [if_neg hc]
          rw [argCore_none_word c rest0 hc, argCore_word_eq rest0 [c]] at heq
          simp only [Option.some.injEq, Prod.mk.injEq,
            List.singleton_append] at heq
          obtain ⟨ha, hrest⟩ := heq
          subst ha
          subst hrest
          have hcw : isWs c = false := dropWhile_head_false isWs cs c rest0 hdw
          have htw : (c :: rest0).takeWhile (fun x => !(isWs x))
              = c :: rest0.takeWhile (fun x => !(isWs x)) := by
            rw [List.takeWhile_cons]
            simp [hcw]
          have hdw2 : (c :: rest0).dropWhile (fun x => !(isWs x))
              = rest0.dropWhile (fun x => !(isWs x)) := by
            rw [List.dropWhile_cons]
            simp [hcw]
          rw [htw, hdw2, ← classifyWord_eq_spec]
          rcases hD : rest0.dropWhile (fun x => !(isWs x)) with _ | ⟨w2, tl⟩
          · simp [wordRest, hD, argsCore_nil, specArgsParse_nil]
          · have hw2 : isWs w2 = true := by
              have := dropWhile_head_false (fun x => !(isWs x)) rest0 w2 tl hD
              simpa using this
            have hdl : (rest0.dropWhile fun x => !(isWs x)).length ≤ rest0.length :=
              length_dropWhile_le _ rest0
            rw [hD] at hdl
            rw [specArgsParse_cons_ws w2 tl hw2]
            simp only [wordRest, hD]
            rw [ih tl (by simp at hlen hdl; omega)]

/-- C8. The argument parser returns a parse error exactly when the input
contains an unclosed quoted string or a backslash escape other than the
recognized ones inside a quoted string; for every input with neither it
succeeds, classifying each unquoted token as Bool for `true`/`false`, as
Integer when it parses as a 32-bit signed integer, and as String otherwise,
while quoted tokens become Strings with the escapes substituted: the
embedded `CommandArgParser::args` agrees with the model read off spec
section 4.7 on every input. -/
theorem args_parser_agrees_with_spec (cs : List Char) :
    argsCore cs = specArgsParse cs :=
  argsCore_eq_spec_aux cs.length cs (Nat.le_refl _)

/-! ## The `delete` command (`src/command.rs` lines 153-183) -/

theorem bufferRemove_sels_length (c : List Char) (sels : List Selection)
    (a l : Nat) : (bufferRemove c sels a l).2.length = sels.length := by
  simp [bufferRemove]

theorem bufferInsert_sels_length (c : List Char) (sels : List Selection)
    (text : List Char) (a : Nat) :
    (bufferInsert c sels text a).2.length = sels.length := by
  simp [bufferInsert]

/-- `ropey`'s `slice(a..=b).to_string()`: the chars of the inclusive range
`[a, b]`; panics (`none`) when `b + 1` exceeds `len_chars` or `a > b + 1`. -/
def sliceIncl (contents : List Char) (a b : Nat) : Option (List Char) :=
  if a ≤ b + 1 ∧ b + 1 ≤ contents.length then
    some ((contents.drop a).take (b + 1 - a))
  else Option.none

/-- The `for i in 0..view.selections.len()` loop of `delete`: the iteration
count `n` is the selection count taken once at loop entry (Rust evaluates
the range bound once; `Buffer::remove` keeps the list length unchanged, so
the bound stays equal to the length). At each index the selection is
re-read from the (already migrated) list, its inclusive range is sliced and
removed via `Buffer::remove`, the text is collected for the kill ring and a
`TextDeletion` is recorded. -/
def deleteLoop (n : Nat) (i : Nat) (contents : List Char)
    (sels : List Selection) (texts : List (List Char)) (actions : List Action) :
    Option (List Char × List Selection × List (List Char) × List Action) :=
  match n with
  | 0 => some (contents, sels, texts, actions)
  | n + 1 =>
    match sels[i]? with
    | Option.none => Option.none
    | some s =>
      match sliceIncl contents s.start s.stop with
      | Option.none => Option.none
      | some text =>
        deleteLoop n (i + 1)
          (bufferRemove contents sels s.start (s.stop - s.start + 1)).1
          (bufferRemove contents sels s.start (s.stop - s.start + 1)).2
          (texts ++ [text])
          (actions ++ [.textDeletion text s.start (s.stop - s.start + 1)])

/-- The engine state that the `delete` command reads and writes: the active
view's buffer contents and history, the view's selections, and the kill
ring (each entry is its list of per-cursor texts). -/
structure DeleteState where
  contents : List Char
  sels : List Selection
  history : History
  killRing : List (List (List Char))
deriving DecidableEq, Repr

/-- `delete` from `src/command.rs` (lines 153-183): loop over the selections
in stored list order; then `register_edit` of all recorded deletions as one
`HistoryAction`, `recalc_tree` (not part of the embedded state), one kill
ring entry holding all deleted texts, `merge_overlapping_selections`, and
`make_selection_visisble` (scroll only, not embedded). -/
def deleteCmd (st : DeleteState) : Option DeleteState :=
  match deleteLoop st.sels.length 0 st.contents st.sels [] [] with
  | Option.none => Option.none
  | some (c2, sels2, texts, actions) =>
    some { contents := c2
           sels := mergeOverlappingSelections sels2
           history := st.history.registerEdit ⟨actions⟩
           killRing := st.killRing ++ [texts] }

/-- The claim's reading of `delete`: identical, except that the selections
are processed "in order of start" — the selection list is brought into
order of start before the loop. -/
def deleteSpecOrdered (st : DeleteState) : Option DeleteState :=
  match deleteLoop (stableSortBy Selection.start st.sels).length 0 st.contents
      (stableSortBy Selection.start st.sels) [] [] with
  | Option.none => Option.none
  | some (c2, sels2, texts, actions) =>
    some { contents := c2
           sels := mergeOverlappingSelections sels2
           history := st.history.registerEdit ⟨actions⟩
           killRing := st.killRing ++ [texts] }

/-- C7 counterexample. `delete` processes selections in stored list order,
not in order of start: on `"abcde"` with the selection list
`[{4,4}, {0,0}]`, the code deletes `"e"` then `"a"` (kill ring entry
`["e", "a"]`, deletions recorded at 4 then 0), while processing in order of
start deletes `"a"` then `"e"` (kill ring entry `["a", "e"]`). -/
theorem delete_not_ordered_by_start :
    deleteCmd
      { contents := [Char.ofNat 97, Char.ofNat 98, Char.ofNat 99,
          Char.ofNat 100, Char.ofNat 101]
        sels := [Selection.mk 4 4 .forward, Selection.mk 0 0 .forward]
        history := ⟨[], 0⟩
        killRing := [] }
      ≠ deleteSpecOrdered
      { contents := [Char.ofNat 97, Char.ofNat 98, Char.ofNat 99,
          Char.ofNat 100, Char.ofNat 101]
        sels := [Selection.mk 4 4 .forward, Selection.mk 0 0 .forward]
        history := ⟨[], 0⟩
        killRing := [] } := by
  decide

theorem insertSortedBy_mem {α : Type} (key : α → Nat) (p : α) (l : List α)
    (x : α) (hx : x ∈ insertSortedBy key p l) : x = p ∨ x ∈ l := by
  induction l with
  | nil => simpa [insertSortedBy] using hx
  | cons q rest ih =>
    simp only [insertSortedBy] at hx
    split at hx
    · rcases List.mem_cons.mp hx with h | h
      · exact Or.inr (List.mem_cons.mpr (Or.inl h))
      · rcases ih h with h2 | h2
        · exact Or.inl h2
        · exact Or.inr (List.mem_cons.mpr (Or.inr h2))
    · rcases List.mem_cons.mp hx with h | h
      · exact Or.inl h
      · exact Or.inr h

theorem stableSortBy_mem {α : Type} (key : α → Nat) (l : List α) (x : α)
    (hx : x ∈ stableSortBy key l) : x ∈ l := by
  induction l with
  | nil => simp [stableSortBy] at hx
  | cons a rest ih =>
    rcases insertSortedBy_mem key a (stableSortBy key rest) x hx with h | h
    · exact h ▸ List.mem_cons_self a rest
    · exact List.mem_cons.mpr (Or.inr (ih h))

theorem mergeGo_points (rest : List Selection) :
    ∀ cur, cur.start = cur.stop → (∀ s ∈ rest, s.start = s.stop) →
      ∀ s ∈ mergeGo cur rest, s.start = s.stop := by
  induction rest with
  | nil =>
    intro cur hcur _ s hs
    simp only [mergeGo, List.mem_singleton] at hs
    exact hs ▸ hcur
  | cons q rest ih =>
    intro cur hcur hall s hs
    simp only [mergeGo] at hs
    split at hs
    · next habs =>
      refine ih _ ?_ (fun t ht => hall t (List.mem_cons.mpr (Or.inr ht))) s hs
      have hq := hall q (List.mem_cons_self q rest)
      simp only []
      omega
    · rcases List.mem_cons.mp hs with h | h
      · exact h ▸ hcur
      · exact ih q (hall q (List.mem_cons_self q rest))
          (fun t ht => hall t (List.mem_cons.mpr (Or.inr ht))) s h

theorem mergeOverlapping_points (sels : List Selection)
    (h : ∀ s ∈ sels, s.start = s.stop) :
    ∀ s ∈ mergeOverlappingSelections sels, s.start = s.stop := by
  intro s hs
  unfold mergeOverlappingSelections at hs
  split at hs
  · simp at hs
  · next q rest hsort =>
    have hall : ∀ t ∈ stableSortBy Selection.start sels, t.start = t.stop :=
      fun t ht => h t (stableSortBy_mem Selection.start sels t ht)
    rw [hsort] at hall
    exact mergeGo_points rest q
      (hall q (List.mem_cons_self q rest))
      (fun t ht => hall t (List.mem_cons.mpr (Or.inr ht))) s hs

theorem deleteLoop_invariant (n : Nat) :
    ∀ (i : Nat) (contents : List Char) (sels : List Selection)
      (texts : List (List Char)) (actions : List Action)
      (c2 : List Char) (sels2 : List Selection)
      (texts2 : List (List Char)) (actions2 : List Action),
      deleteLoop n i contents sels texts actions
        = some (c2, sels2, texts2, actions2) →
      i + n = sels.length →
      (∀ s ∈ sels, s.start ≤ s.stop) →
      (∀ j, j < i → ∀ s, sels[j]? = some s → s.start = s.stop) →
      sels2.length = sels.length ∧
      texts2.length = texts.length + n ∧
      actions2.length = actions.length + n ∧
      (∀ a ∈ actions2, a ∈ actions ∨ ∃ t st l, a = Action.textDeletion t st l) ∧
      (∀ s ∈ sels2, s.start = s.stop) := by
  induction n with
  | zero =>
    intro i contents sels texts actions c2 sels2 texts2 actions2 hrun hin hval hpts
    simp only [deleteLoop, Option.some.injEq, Prod.mk.injEq] at hrun
    obtain ⟨h1, h2, h3, h4⟩ := hrun
    subst h1
    subst h2
    subst h3
    subst h4
    refine ⟨rfl, by omega, by omega, fun a ha => Or.inl ha, ?_⟩
    intro s hs
    rcases List.mem_iff_getElem?.mp hs with ⟨j, hj⟩
    have hjlt : j < sels.length := by
      rcases List.getElem?_eq_some.mp hj with ⟨h, _⟩
      exact h
    exact hpts j (by omega) s hj
  | succ n ih =>
    intro i contents sels texts actions c2 sels2 texts2 actions2 hrun hin hval hpts
    simp only [deleteLoop] at hrun
    split at hrun
    · simp at hrun
    · next s hs =>
      split at hrun
      · simp at hrun
      · next text hsl =>
        obtain ⟨hi, hsi⟩ := List.getElem?_eq_some.mp hs
        have hmem : s ∈ sels := hsi ▸ List.getElem_mem hi
        have hss : s.start ≤ s.stop := hval s hmem
        have hslc : s.stop + 1 ≤ contents.length := by
          unfold sliceIncl at hsl
          split at hsl
          · next hcond => exact hcond.2
          · simp at hsl
        have hval2 : ∀ t ∈ (bufferRemove contents sels s.start
            (s.stop - s.start + 1)).2, t.start ≤ t.stop := by
          intro t ht
          simp only [bufferRemove, List.mem_map] at ht
          obtain ⟨u, hu, rfl⟩ := ht
          have := hval u hu
          simp only [removeMig]
          split_ifs <;> omega
        have hpts2 : ∀ j, j < i + 1 → ∀ t,
            (bufferRemove contents sels s.start (s.stop - s.start + 1)).2[j]?
              = some t → t.start = t.stop := by
          intro j hj t hjt
          simp only [bufferRemove, List.getElem?_map] at hjt
          rcases hju : sels[j]? with _ | u <;> rw [hju] at hjt
          · simp at hjt
          · simp only [Option.map_some', Option.some.injEq] at hjt
            subst hjt
            by_cases hji : j < i
            · have hu := hpts j hji u hju
              simp only [removeMig]
              split_ifs <;> omega
            · have hje : j = i := by omega
              subst hje
              rw [hs] at hju
              obtain rfl : s = u := Option.some.inj hju
              simp only [removeMig]
              split_ifs <;> omega
        have hlen2 : (i + 1) + n = (bufferRemove contents sels s.start
            (s.stop - s.start + 1)).2.length := by
          rw [bufferRemove_sels_length]
          omega
        obtain ⟨g1, g2, g3, g4, g5⟩ := ih (i + 1) _ _ _ _ _ _ _ _ hrun
          hlen2.symm.symm hval2 hpts2
        rw [bufferRemove_sels_length] at g1
        refine ⟨by omega, by simp at g2; omega, by simp at g3; omega, ?_, g5⟩
        intro a ha
        rcases g4 a ha with h | h
        · rcases List.mem_append.mp h with h2 | h2
          · exact Or.inl h2
          · refine Or.inr ?_
            rcases List.mem_singleton.mp h2 with rfl
            exact ⟨text, s.start, s.stop - s.start + 1, rfl⟩
        · exact Or.inr h

/-- C7 amended: `delete`, for each selection in the view's stored list
order, removes the inclusive char range `[start, end]` (in its coordinates
at processing time) and records one `TextDeletion` per selection; after all
deletions every selection is collapsed to a single point, the deleted texts
go into the kill ring as one entry with one text per selection, and
overlapping selections are merged. Stated for every run of `delete` that
does not panic (`deleteCmd st = some out`) from selections with
`start ≤ end`. -/
theorem delete_cmd_list_order (st : DeleteState) (out : DeleteState)
    (hval : ∀ s ∈ st.sels, s.start ≤ s.stop)
    (hrun : deleteCmd st = some out) :
    (∃ texts actions,
      out.killRing = st.killRing ++ [texts] ∧
      texts.length = st.sels.length ∧
      out.history = st.history.registerEdit ⟨actions⟩ ∧
      actions.length = st.sels.length ∧
      ∀ a ∈ actions, ∃ t s l, a = Action.textDeletion t s l) ∧
    ∀ s ∈ out.sels, s.start = s.stop := by
  unfold deleteCmd at hrun
  rcases hd : deleteLoop st.sels.length 0 st.contents st.sels [] []
    with _ | ⟨c2, sels2, texts, actions⟩ <;> rw [hd] at hrun
  · simp at hrun
  · simp only [Option.some.injEq] at hrun
    subst hrun
    obtain ⟨g1, g2, g3, g4, g5⟩ := deleteLoop_invariant st.sels.length 0
      st.contents st.sels [] [] c2 sels2 texts actions hd (by omega) hval
      (by intro j hj; omega)
    refine ⟨⟨texts, actions, rfl, by simpa using g2, rfl, by simpa using g3, ?_⟩, ?_⟩
    · intro a ha
      rcases g4 a ha with h | h
      · simp at h
      · exact h
    · exact mergeOverlapping_points sels2 g5

/-- Witness for the amended C7 theorem: deleting the selection `[0,1]` from
`"abc"` leaves `"c"`, records one `TextDeletion`, pushes one kill ring entry
with one text, and leaves one selection collapsed at 0. -/
theorem delete_cmd_list_order_witness :
    (∀ s ∈ [Selection.mk 0 1 .forward], s.start ≤ s.stop) ∧
    ((∃ texts actions,
      [[[Char.ofNat 97, Char.ofNat 98]]]
        = ([] : List (List (List Char))) ++ [texts] ∧
      texts.length = 1 ∧
      (⟨[HistoryAction.mk [.textDeletion [Char.ofNat 97, Char.ofNat 98] 0 2]],
          1⟩ : History)
        = History.registerEdit ⟨[], 0⟩ ⟨actions⟩ ∧
      actions.length = 1 ∧
      ∀ a ∈ actions, ∃ t s l, a = Action.textDeletion t s l) ∧
     ∀ s ∈ [Selection.mk 0 0 Direction.forward], s.start = s.stop) :=
  ⟨by decide,
    delete_cmd_list_order
      { contents := [Char.ofNat 97, Char.ofNat 98, Char.ofNat 99]
        sels := [Selection.mk 0 1 .forward]
        history := ⟨[], 0⟩
        killRing := [] }
      { contents := [Char.ofNat 99]
        sels := [Selection.mk 0 0 .forward]
        history := ⟨[HistoryAction.mk
          [.textDeletion [Char.ofNat 97, Char.ofNat 98] 0 2]], 1⟩
        killRing := [[[Char.ofNat 97, Char.ofNat 98]]] }
      (by decide) (by decide)⟩

/-! ## Insert-mode fast path (`src/engine.rs` lines 214-240) -/

/-- The suffix shift of the fast path (`sel.start += 1; sel.end += 1`). -/
def shiftSel (s : Selection) : Selection :=
  { s with start := s.start + 1, stop := s.stop + 1 }

/-- `ropey`'s `insert_char(idx, c)`: panics (`none`) when the char index
exceeds `len_chars`. -/
def insertCharAt (contents : List Char) (idx : Nat) (c : Char) :
    Option (List Char) :=
  if idx ≤ contents.length then some (ropeInsert contents idx [c])
  else Option.none

/-- The `for i in 0..selections.len()` loop of the Insert-mode fast path
(`src/engine.rs` lines 231-239): `loc` is the local enumerated copy of the
selections, stable-sorted by start, and the bound is its length taken once.
At each step the char is inserted directly into the rope at the current
entry's start, the suffix `loc[i..]` (including `i` itself) is shifted by
one, and the shifted entry is written back into the view's selection list
at its original index (after the shift `loc[i]` equals `(p.1, shiftSel
p.2)`; the original index, coming from `enumerate`, is always in bounds for
the write-back). -/
def fastLoop (c : Char) : Nat → Nat → List Char → List (Nat × Selection) →
    List Selection → Option (List Char × List Selection)
  | 0, _, contents, _, viewSels => some (contents, viewSels)
  | n + 1, i, contents, loc, viewSels =>
    match loc[i]? with
    | Option.none => Option.none
    | some p =>
      match insertCharAt contents p.2.start c with
      | Option.none => Option.none
      | some contents2 =>
        fastLoop c n (i + 1) contents2
          (loc.take i ++ (loc.drop i).map fun q => (q.1, shiftSel q.2))
          (viewSels.set p.1 (shiftSel p.2))

/-- The Insert-mode fast path of `Engine::key_event` (`src/engine.rs` lines
214-240), for a printable `Char` key with no binding: enumerate the active
view's selections, stable-sort them by start (`sort_by_key`), then run the
insertion loop. -/
def insertModeFastPath (c : Char) (contents : List Char)
    (sels : List Selection) : Option (List Char × List Selection) :=
  let loc := stableSortBy (fun p => p.2.start) sels.enum
  fastLoop c loc.length 0 contents loc sels

/-- The claim's reference behavior: call the `Buffer::insert` primitive with
the one-character string at each selection's (current) start, selections
processed in order of start. -/
def primInsertRef (c : Char) (contents : List Char) (sels : List Selection) :
    List Char × List Selection :=
  ((stableSortBy (fun p => p.2.start) sels.enum).map Prod.fst).foldl
    (fun st idx =>
      match st.2[idx]? with
      | Option.none => st
      | some s => bufferInsert st.1 st.2 [c] s.start)
    (contents, sels)

/-- C9 counterexample. With two coincident selections `{0,0}` on the empty
buffer, typing `x` in Insert mode leaves the selections at `{1,1}` and
`{2,2}` (the fast path shifts only the sorted suffix), while applying the
`Buffer::insert` primitive per selection migrates every endpoint `≥` the
insertion point and leaves `{2,2}` and `{2,2}`. -/
theorem insert_fast_path_not_equivalent :
    insertModeFastPath (Char.ofNat 120) []
      [Selection.mk 0 0 .forward, Selection.mk 0 0 .forward]
      ≠ some (primInsertRef (Char.ofNat 120) []
        [Selection.mk 0 0 .forward, Selection.mk 0 0 .forward]) := by
  decide

/-- Shift both endpoints of a selection right by `k`. -/
def shiftSelBy (k : Nat) (s : Selection) : Selection :=
  { s with start := s.start + k, stop := s.stop + k }

/-- The selections after `k` insertions, as both processes leave them once
fully written back: entry `j` is shifted by `j + 1` once processed
(`j < k`), by `k` (one per insertion so far) otherwise. -/
def stageSels (sels : List Selection) (k : Nat) : List Selection :=
  sels.mapIdx fun j s => if j < k then shiftSelBy (j + 1) s else shiftSelBy k s

/-- The view's selection list after `k` fast-path iterations: processed
entries hold their written-back value, the rest are untouched. -/
def stageView (sels : List Selection) (k : Nat) : List Selection :=
  sels.mapIdx fun j s => if j < k then shiftSelBy (j + 1) s else s

/-- The fast path's local sorted copy after `k` iterations (on an input
already sorted by start the stable sort is the enumeration itself). -/
def stageLoc (sels : List Selection) (k : Nat) : List (Nat × Selection) :=
  sels.mapIdx fun j s => (j, if j < k then shiftSelBy (j + 1) s else shiftSelBy k s)

/-- The rope after the first `k` insertions: the `j`-th inserts at the
`j`-th selection's original start shifted by the `j` earlier insertions. -/
def stageContents (c : Char) (contents : List Char) (sels : List Selection) :
    Nat → List Char
  | 0 => contents
  | k + 1 =>
    match sels[k]? with
    | some s => ropeInsert (stageContents c contents sels k) (s.start + k) [c]
    | Option.none => stageContents c contents sels k

theorem shiftSelBy_zero (s : Selection) : shiftSelBy 0 s = s := by
  cases s
  simp [shiftSelBy]

theorem shiftSel_shiftSelBy (k : Nat) (s : Selection) :
    shiftSel (shiftSelBy k s) = shiftSelBy (k + 1) s := by
  cases s
  simp [shiftSel, shiftSelBy]
  omega

theorem insertSortedBy_of_le {α : Type} (key : α → Nat) (a : α) (l : List α)
    (h : ∀ b ∈ l.head?, key a ≤ key b) : insertSortedBy key a l = a :: l := by
  cases l with
  | nil => rfl
  | cons q rest =>
    have hq : key a ≤ key q := h q rfl
    simp [insertSortedBy, Nat.not_lt.mpr hq]

theorem stableSortBy_eq_self {α : Type} (key : α → Nat) (l : List α)
    (h : l.Pairwise fun a b => key a ≤ key b) : stableSortBy key l = l := by
  induction l with
  | nil => rfl
  | cons a rest ih =>
    have h1 : stableSortBy key (a :: rest) = insertSortedBy key a (stableSortBy key rest) := rfl
    rw [h1, ih (List.Pairwise.of_cons h)]
    apply insertSortedBy_of_le
    intro b hb
    cases rest with
    | nil => simp at hb
    | cons q rest2 =>
      have : q = b := by simpa using hb
      subst this
      exact (List.pairwise_cons.mp h).1 q (List.mem_cons_self _ _)

theorem stageContents_length (c : Char) (contents : List Char)
    (sels : List Selection)
    (hval : ∀ s ∈ sels, s.start ≤ contents.length) :
    ∀ k, k ≤ sels.length →
      (stageContents c contents sels k).length = contents.length + k := by
  intro k
  induction k with
  | zero => intro _; rfl
  | succ k ih =>
    intro hk
    have hklt : k < sels.length := by omega
    have hmem : sels[k] ∈ sels := List.getElem_mem hklt
    have hsk : sels[k]? = some sels[k] := List.getElem?_eq_getElem hklt
    have hlen : (stageContents c contents sels k).length = contents.length + k :=
      ih (by omega)
    have hstart : sels[k].start ≤ contents.length := hval _ hmem
    simp only [stageContents, hsk]
    rw [ropeInsert_length _ _ _ (by omega :
      sels[k].start + k ≤ (stageContents c contents sels k).length)]
    rw [hlen]
    simp only [List.length_singleton]
    omega

theorem shiftSelBy_start (k : Nat) (s : Selection) :
    (shiftSelBy k s).start = s.start + k := rfl

theorem shiftSelBy_stop (k : Nat) (s : Selection) :
    (shiftSelBy k s).stop = s.stop + k := rfl

theorem shiftSelBy_dir (k : Nat) (s : Selection) :
    (shiftSelBy k s).dir = s.dir := rfl

theorem insertMig_start (ci l : Nat) (s : Selection) :
    (insertMig ci l s).start = if s.start ≥ ci then s.start + l else s.start := rfl

theorem insertMig_stop (ci l : Nat) (s : Selection) :
    (insertMig ci l s).stop = if s.stop ≥ ci then s.stop + l else s.stop := rfl

theorem insertMig_dir (ci l : Nat) (s : Selection) :
    (insertMig ci l s).dir = s.dir := rfl

theorem selExt (a b : Selection) (h1 : a.start = b.start) (h2 : a.stop = b.stop)
    (h3 : a.dir = b.dir) : a = b := by
  cases a
  cases b
  simp_all

theorem stageView_eq_stageSels (sels : List Selection) :
    stageView sels sels.length = stageSels sels sels.length := by
  apply List.ext_getElem?
  intro j
  simp only [stageView, stageSels, List.getElem?_mapIdx]
  rcases hj : sels[j]? with _ | s
  · rfl
  · have hjlt : j < sels.length := (List.getElem?_eq_some.mp hj).1
    simp [hjlt]

theorem fastLoop_stage (c : Char) (contents : List Char) (sels : List Selection)
    (hval : ∀ s ∈ sels, s.start ≤ s.stop ∧ s.stop ≤ contents.length) :
    ∀ m k, k + m = sels.length →
      fastLoop c m k (stageContents c contents sels k) (stageLoc sels k)
        (stageView sels k)
        = some (stageContents c contents sels sels.length,
            stageSels sels sels.length) := by
  intro m
  induction m with
  | zero =>
    intro k hk
    have hk2 : k = sels.length := by omega
    subst hk2
    rw [stageView_eq_stageSels]
    rfl
  | succ m ih =>
    intro k hk
    have hklt : k < sels.length := by omega
    have hmem : sels[k] ∈ sels := List.getElem_mem hklt
    obtain ⟨hks, hke⟩ := hval _ hmem
    have hsk : sels[k]? = some sels[k] := List.getElem?_eq_getElem hklt
    have hclen : (stageContents c contents sels k).length = contents.length + k :=
      stageContents_length c contents sels
        (fun s hs => le_trans (hval s hs).1 (hval s hs).2) k (by omega)
    have hlock : (stageLoc sels k)[k]? = some (k, shiftSelBy k sels[k]) := by
      simp [stageLoc, List.getElem?_mapIdx, hsk]
    have hins : insertCharAt (stageContents c contents sels k)
        (shiftSelBy k sels[k]).start c
        = some (stageContents c contents sels (k + 1)) := by
      unfold insertCharAt
      rw [if_pos (by simp [shiftSelBy]; omega)]
      simp only [stageContents, hsk]
      simp [shiftSelBy]
    have hll : (stageLoc sels k).length = sels.length := by
      simp [stageLoc]
    have hloc2 : (stageLoc sels k).take k ++ ((stageLoc sels k).drop k).map
        (fun q => (q.1, shiftSel q.2)) = stageLoc sels (k + 1) := by
      apply List.ext_getElem?
      intro j
      rw [List.getElem?_append]
      rw [List.length_take, hll]
      by_cases hjk : j < k
      · rw [if_pos (by omega)]
        rw [List.getElem?_take]
        rw [if_pos hjk]
        simp only [stageLoc, List.getElem?_mapIdx]
        rcases sels[j]? with _ | s
        · rfl
        · simp [hjk, Nat.lt_succ_of_lt hjk]
      · rw [if_neg (by omega)]
        rw [List.getElem?_map, List.getElem?_drop]
        have hjj : k + (j - min k sels.length) = j := by omega
        rw [hjj]
        simp only [stageLoc, List.getElem?_mapIdx]
        rcases sels[j]? with _ | s
        · rfl
        · simp only [Option.map_some', Option.some.injEq]
          rw [if_neg hjk]
          by_cases hjk1 : j < k + 1
          · have : j = k := by omega
            subst this
            rw [if_pos hjk1, shiftSel_shiftSelBy]
          · rw [if_neg hjk1, shiftSel_shiftSelBy]
    have hview2 : (stageView sels k).set k (shiftSel (shiftSelBy k sels[k]))
        = stageView sels (k + 1) := by
      rw [shiftSel_shiftSelBy]
      apply List.ext_getElem?
      intro j
      rw [List.getElem?_set]
      by_cases hjk : k = j
      · subst hjk
        rw [if_pos rfl]
        have hvl : k < (stageView sels k).length := by simp [stageView]; omega
        rw [if_pos hvl]
        simp [stageView, stageSels, List.getElem?_mapIdx, hsk]
      · rw [if_neg hjk]
        simp only [stageView, List.getElem?_mapIdx]
        rcases sels[j]? with _ | s
        · rfl
        · simp only [Option.map_some', Option.some.injEq]
          by_cases hjl : j < k
          · rw [if_pos hjl, if_pos (by omega)]
          · rw [if_neg hjl, if_neg (by omega)]
    simp only [fastLoop, hlock, hins, hloc2, hview2]
    exact ih (k + 1) (by omega)

theorem primLoop_stage (c : Char) (contents : List Char) (sels : List Selection)
    (hval : ∀ s ∈ sels, s.start ≤ s.stop ∧ s.stop ≤ contents.length)
    (hsep : sels.Pairwise fun a b => a.stop < b.start) :
    ∀ m k, k + m = sels.length →
      (List.range' k m).foldl
        (fun st idx =>
          match st.2[idx]? with
          | Option.none => st
          | some s => bufferInsert st.1 st.2 [c] s.start)
        (stageContents c contents sels k, stageSels sels k)
        = (stageContents c contents sels sels.length,
            stageSels sels sels.length) := by
  have hsepIdx := List.pairwise_iff_getElem.mp hsep
  intro m
  induction m with
  | zero =>
    intro k hk
    have hk2 : k = sels.length := by omega
    subst hk2
    rfl
  | succ m ih =>
    intro k hk
    have hklt : k < sels.length := by omega
    have hmem : sels[k] ∈ sels := List.getElem_mem hklt
    obtain ⟨hks, hke⟩ := hval _ hmem
    have hsk : sels[k]? = some sels[k] := List.getElem?_eq_getElem hklt
    have hclen : (stageContents c contents sels k).length = contents.length + k :=
      stageContents_length c contents sels
        (fun s hs => le_trans (hval s hs).1 (hval s hs).2) k (by omega)
    rw [List.range'_succ]
    rw [List.foldl_cons]
    have hsel : (stageSels sels k)[k]? = some (shiftSelBy k sels[k]) := by
      simp [stageSels, List.getElem?_mapIdx, hsk]
    have hmin : min (shiftSelBy k sels[k]).start
        (stageContents c contents sels k).length = sels[k].start + k := by
      simp [shiftSelBy, hclen]
      omega
    have hc2 : ropeInsert (stageContents c contents sels k)
        (sels[k].start + k) [c] = stageContents c contents sels (k + 1) := by
      simp [stageContents, hsk]
    have hs2 : (stageSels sels k).map (insertMig (sels[k].start + k) 1)
        = stageSels sels (k + 1) := by
        apply List.ext_getElem?
        intro j
        rw [List.getElem?_map]
        simp only [stageSels, List.getElem?_mapIdx]
        rcases hj : sels[j]? with _ | s
        · rfl
        · have hjlt : j < sels.length := (List.getElem?_eq_some.mp hj).1
          have hjs : sels[j] = s := by
            rw [List.getElem?_eq_getElem hjlt] at hj
            exact Option.some.inj hj
          have hsv := hval s (List.getElem?_mem hj)
          simp only [Option.map_some', Option.some.injEq]
          by_cases hjk : j < k
          · have hd : s.stop < sels[k].start := by
              have := hsepIdx j k hjlt hklt hjk
              rw [hjs] at this
              exact this
            rw [if_pos hjk, if_pos (by omega : j < k + 1)]
            apply selExt <;>
              simp only [insertMig_start, insertMig_stop, insertMig_dir,
                shiftSelBy_start, shiftSelBy_stop, shiftSelBy_dir] <;>
              first
              | rfl
              | (split_ifs <;> omega)
          · by_cases hjk1 : j < k + 1
            · have hje : j = k := by omega
              have hsome : sels[k]? = some s := hje ▸ hj
              have hks2 : sels[k] = s := by
                rw [hsk] at hsome
                exact Option.some.inj hsome
              have hseq : sels[k].start = s.start ∧ sels[k].stop = s.stop := by
                rw [hks2]
                exact ⟨rfl, rfl⟩
              rw [if_neg hjk, if_pos hjk1]
              apply selExt <;>
                simp only [insertMig_start, insertMig_stop, insertMig_dir,
                  shiftSelBy_start, shiftSelBy_stop, shiftSelBy_dir] <;>
                first
                | rfl
                | (obtain ⟨hq1, hq2⟩ := hseq
                   obtain ⟨hv1, hv2⟩ := hsv
                   split_ifs <;> omega)
            · have hd : sels[k].stop < s.start := by
                have := hsepIdx k j hklt hjlt (by omega)
                rw [hjs] at this
                exact this
              rw [if_neg hjk, if_neg hjk1]
              apply selExt <;>
                simp only [insertMig_start, insertMig_stop, insertMig_dir,
                  shiftSelBy_start, shiftSelBy_stop, shiftSelBy_dir] <;>
                first
                | rfl
                | (split_ifs <;> omega)
    have hbuf : bufferInsert (stageContents c contents sels k)
        (stageSels sels k) [c] (shiftSelBy k sels[k]).start
        = (stageContents c contents sels (k + 1), stageSels sels (k + 1)) := by
      unfold bufferInsert
      dsimp only
      rw [hmin]
      rw [hc2]
      simp only [List.length_singleton]
      rw [hs2]
    simp only [hsel]
    rw [hbuf]
    exact ih (k + 1) (by omega)

/-- C9 amended: for every printable `Char` key received in Insert mode with
no binding, when the view's selections are valid and pairwise disjoint
(each selection's end lies strictly before every later selection's start),
the resulting rope contents and the start/end of every selection equal
those produced by calling the `Buffer::insert` primitive with that
one-character string at each selection's start, selections processed in
order of start. -/
theorem insert_fast_path_equiv_disjoint (c : Char) (contents : List Char)
    (sels : List Selection)
    (hval : ∀ s ∈ sels, s.start ≤ s.stop ∧ s.stop ≤ contents.length)
    (hsep : sels.Pairwise fun a b => a.stop < b.start) :
    insertModeFastPath c contents sels
      = some (primInsertRef c contents sels) := by
  have hsepIdx := List.pairwise_iff_getElem.mp hsep
  have hpw : sels.enum.Pairwise fun a b => a.2.start ≤ b.2.start := by
    rw [List.pairwise_iff_getElem]
    intro i j hi hj hij
    have hi2 : i < sels.length := by simpa using hi
    have hj2 : j < sels.length := by simpa using hj
    rw [List.getElem_enum, List.getElem_enum]
    have hd := hsepIdx i j hi2 hj2 hij
    have hv := hval sels[i] (List.getElem_mem hi2)
    simp only []
    omega
  have hsort : stableSortBy (fun p => p.2.start) sels.enum = sels.enum :=
    stableSortBy_eq_self _ sels.enum hpw
  have h0c : stageContents c contents sels 0 = contents := rfl
  have h0loc : stageLoc sels 0 = sels.enum := by
    apply List.ext_getElem?
    intro j
    simp only [stageLoc, List.getElem?_mapIdx, List.getElem?_enum]
    rcases sels[j]? with _ | s
    · rfl
    · simp [shiftSelBy_zero]
  have h0view : stageView sels 0 = sels := by
    apply List.ext_getElem?
    intro j
    simp only [stageView, List.getElem?_mapIdx]
    rcases sels[j]? with _ | s <;> simp
  have h0sels : stageSels sels 0 = sels := by
    apply List.ext_getElem?
    intro j
    simp only [stageSels, List.getElem?_mapIdx]
    rcases sels[j]? with _ | s <;> simp [shiftSelBy_zero]
  have hfast := fastLoop_stage c contents sels hval sels.length 0 (by omega)
  rw [h0c, h0loc, h0view] at hfast
  have hprim := primLoop_stage c contents sels hval hsep sels.length 0 (by omega)
  rw [h0c, h0sels] at hprim
  show fastLoop c (stableSortBy (fun p => p.2.start) sels.enum).length 0 contents
      (stableSortBy (fun p => p.2.start) sels.enum) sels
    = some (primInsertRef c contents sels)
  rw [hsort, List.enum_length, hfast]
  unfold primInsertRef
  rw [hsort, List.enum_map_fst, List.range_eq_range', hprim]

/-- Witness for the amended C9 theorem at `"abcd"` with the disjoint
selections `{0,0}` and `{2,3}`. -/
theorem insert_fast_path_equiv_witness :
    (∀ s ∈ [Selection.mk 0 0 Direction.forward, Selection.mk 2 3 Direction.forward],
      s.start ≤ s.stop ∧
        s.stop ≤ [Char.ofNat 97, Char.ofNat 98, Char.ofNat 99, Char.ofNat 100].length) ∧
    ([Selection.mk 0 0 Direction.forward, Selection.mk 2 3 Direction.forward].Pairwise
      fun a b => a.stop < b.start) ∧
    insertModeFastPath (Char.ofNat 120)
      [Char.ofNat 97, Char.ofNat 98, Char.ofNat 99, Char.ofNat 100]
      [Selection.mk 0 0 Direction.forward, Selection.mk 2 3 Direction.forward]
      = some (primInsertRef (Char.ofNat 120)
        [Char.ofNat 97, Char.ofNat 98, Char.ofNat 99, Char.ofNat 100]
        [Selection.mk 0 0 Direction.forward, Selection.mk 2 3 Direction.forward]) :=
  ⟨by decide, by decide,
    insert_fast_path_equiv_disjoint (Char.ofNat 120)
      [Char.ofNat 97, Char.ofNat 98, Char.ofNat 99, Char.ofNat 100]
      [Selection.mk 0 0 Direction.forward, Selection.mk 2 3 Direction.forward]
      (by decide) (by decide)⟩

end Spiral
